import Mathlib

/-!
Shallow embedding of the state-navigation and vision-matching core of the
`daily-ai-slurper` repository (`src/core/state/manager.py`,
`src/core/state/detection.py`, `src/core/vision/template.py`, `src/main.py`),
together with theorems settling the frozen claims about it.

Conventions of the embedding:
* Python floats (timestamps, durations, confidences) are modelled as `ℚ`.
* Python dicts keyed by state pairs / strings are association lists with
  Python's insertion-order and replace-in-place update semantics.
* Python sets over the finite `GameState` enumeration are `Finset GameState`.
* `time.time()` and the capture→detect pipeline are oracles passed explicitly
  (a call-indexed environment), since they are external collaborators.
-/

/-! ## Embedded data model and operations -/

/-- The `GameState` enum of `src/core/state/manager.py`. -/
inductive GameState where
  | UNKNOWN
  | HOME_SCREEN
  | BATTLE
  | SHOP
  | INVENTORY
  | MAIL
  | LOADING
  | LOGIN
  | ERROR
  | POPUP
deriving DecidableEq, Repr, Fintype

/-- The `StateTransition` class: a directed edge with its action list and
expected duration. -/
structure StateTransition where
  from_state : GameState
  to_state : GameState
  action_sequence : List String
  expected_duration : ℚ
deriving DecidableEq, Repr

/-- The type of the `StateManager.transitions` dict: keys are ordered state
pairs, values the registered transition.  Association list in insertion
order, mirroring a Python dict. -/
abbrev TransMap := List ((GameState × GameState) × StateTransition)

/-- Python dict lookup `ts[k]` (as an `Option`): first binding of the key. -/
def dictGet (ts : TransMap) (k : GameState × GameState) : Option StateTransition :=
  match ts with
  | [] => none
  | (k', v) :: rest => if k' = k then some v else dictGet rest k

/-- Python dict update `ts[k] = v`: replaces the binding in place if the key
is present (keeping its insertion position), otherwise appends it. -/
def dictSet (ts : TransMap) (k : GameState × GameState) (v : StateTransition) : TransMap :=
  match ts with
  | [] => [(k, v)]
  | (k', v') :: rest => if k' = k then (k, v) :: rest else (k', v') :: dictSet rest k v

/-- The mutable fields of the `StateManager` class. -/
structure StateManager where
  current_state : GameState
  previous_state : Option GameState
  state_history : List (GameState × ℚ)
  transitions : TransMap
  stable_state_time : ℚ
deriving DecidableEq, Repr

/-- `StateManager.register_transition`: builds a `StateTransition` from the
arguments and upserts it at key `(from_state, to_state)`. -/
def StateManager.register_transition (m : StateManager) (from_state to_state : GameState)
    (action_sequence : List String) (expected_duration : ℚ) : StateManager :=
  let transition : StateTransition :=
    ⟨from_state, to_state, action_sequence, expected_duration⟩
  { m with transitions := dictSet m.transitions (from_state, to_state) transition }

/-- The field state set up by `StateManager.__init__` before
`_register_default_transitions` runs. -/
def StateManager.blank : StateManager :=
  ⟨GameState.UNKNOWN, none, [], [], 0⟩

/-- `StateManager._register_default_transitions`: the five hard-coded edges
registered at construction, in registration order. -/
def StateManager.register_default_transitions (m : StateManager) : StateManager :=
  ((((m.register_transition GameState.HOME_SCREEN GameState.SHOP
        ["click_template:home/shop_icon"] 2
      ).register_transition GameState.SHOP GameState.HOME_SCREEN
        ["click_template:common/return_home"] (mkRat 3 2)
      ).register_transition GameState.POPUP GameState.UNKNOWN
        ["click_template:common/close_button",
         "click_template:common/confirm_button",
         "click_template:common/empty_area"] 1
      ).register_transition GameState.ERROR GameState.HOME_SCREEN
        ["click_template:common/confirm_button", "wait:2.0"] 3
      ).register_transition GameState.UNKNOWN GameState.HOME_SCREEN
        ["click_template:common/return_home",
         "wait:1.0",
         "click_template:common/close_button",
         "wait:0.5",
         "click_template:common/confirm_button",
         "wait:0.5"] 3

/-- `StateManager.__init__`: blank fields plus the default transitions. -/
def StateManager.initial : StateManager :=
  StateManager.blank.register_default_transitions

/-- `StateManager.update_state(new_state)` at clock value `now`: returns the
mutated manager and the `bool` the method returns. -/
def StateManager.update_state (m : StateManager) (new_state : GameState) (now : ℚ) :
    StateManager × Bool :=
  if new_state = m.current_state then (m, false)
  else
    ({ m with
        previous_state := some m.current_state,
        current_state := new_state,
        state_history := m.state_history ++ [(new_state, now)],
        stable_state_time := now }, true)

/-- The inner `for (from_s, to_s), transition in self.transitions.items()`
loop of one BFS iteration of `StateManager.find_path`: scans the remaining
edge list, either returning the finished path early (the `to_s == target`
branch) or accumulating the visited-set insertions and queue appends. -/
def expand (target state : GameState) (path : List StateTransition) :
    TransMap → Finset GameState → List (GameState × List StateTransition) →
    (List StateTransition) ⊕ (Finset GameState × List (GameState × List StateTransition))
  | [], visited, acc => Sum.inr (visited, acc)
  | ((f, t), tr) :: rest, visited, acc =>
    if f = state ∧ t ∉ visited then
      if t = target then Sum.inl (path ++ [tr])
      else expand target state path rest (insert t visited) (acc ++ [(t, path ++ [tr])])
    else expand target state path rest visited acc

/-- The `while queue:` loop of `StateManager.find_path`, with an explicit
fuel argument.  Each iteration pops the queue front and runs `expand` on the
full edge list.  `find_path` supplies fuel exceeding the loop's invariant
measure, so the `0` case is never the reason a `none` is returned
(`bfs_fuel_master` below proves the outcome for all sufficient fuels). -/
def bfs_fuel (target : GameState) (ts : TransMap) :
    Nat → List (GameState × List StateTransition) → Finset GameState →
    Option (List StateTransition)
  | 0, _, _ => none
  | _ + 1, [], _ => none
  | fuel + 1, (state, path) :: rest, visited =>
    match expand target state path ts visited [] with
    | Sum.inl ans => some ans
    | Sum.inr (visited', adds) => bfs_fuel target ts fuel (rest ++ adds) visited'

/-- `StateManager.find_path(target)`: empty path when already at the target,
otherwise BFS from the current state with queue `[(current, [])]` and
visited set `{current}`. -/
def StateManager.find_path (m : StateManager) (target : GameState) :
    Option (List StateTransition) :=
  if m.current_state = target then some []
  else bfs_fuel target m.transitions (2 * Fintype.card GameState)
    [(m.current_state, [])] {m.current_state}

/-- `StateManager.can_transition_to(target)`: `find_path(target) is not None`. -/
def StateManager.can_transition_to (m : StateManager) (target : GameState) : Bool :=
  (m.find_path target).isSome

/-- `StateManager.get_reachable_states()`: `{current}` plus every `to_s` of
an edge whose `from_s` is the current state. -/
def StateManager.get_reachable_states (m : StateManager) : Finset GameState :=
  m.transitions.foldl
    (fun acc kv => if kv.1.1 = m.current_state then insert kv.1.2 acc else acc)
    {m.current_state}

/-- Edge relation of a transition map: some binding is stored at this ordered
key. -/
def EdgeOf (ts : TransMap) (a b : GameState) : Prop :=
  ∃ tr, ((a, b), tr) ∈ ts

/-- `PathFrom ts a p b`: the transition list `p` is a walk from `a` to `b`,
each step being a binding of `ts` whose key links the intermediate states. -/
inductive PathFrom (ts : TransMap) : GameState → List StateTransition → GameState → Prop
  | nil (a : GameState) : PathFrom ts a [] a
  | cons {a b c : GameState} {tr : StateTransition} {p : List StateTransition} :
      ((a, b), tr) ∈ ts → PathFrom ts b p c → PathFrom ts a (tr :: p) c

/-- `b` is reachable from `a` in the directed graph of `ts`. -/
def ReachableIn (ts : TransMap) (a b : GameState) : Prop :=
  ∃ p, PathFrom ts a p b

/-- Loop invariant of the BFS in `StateManager.find_path`, for start state
`s` and target `t`: the start is visited and the target is not; every queue
entry carries a shortest path from the start to its state; queue entries are
sorted by path length and any two lengths differ by at most one; and every
visited state is either still pending in the queue or has all its successors
visited. -/
structure BfsInv (ts : TransMap) (s t : GameState)
    (Q : List (GameState × List StateTransition)) (V : Finset GameState) : Prop where
  start_mem : s ∈ V
  target_notin : t ∉ V
  entries : ∀ e ∈ Q, PathFrom ts s e.2 e.1 ∧
    ∀ q, PathFrom ts s q e.1 → e.2.length ≤ q.length
  sorted : Q.Sorted (fun e₁ e₂ => e₁.2.length ≤ e₂.2.length)
  close : ∀ e₁ ∈ Q, ∀ e₂ ∈ Q, e₁.2.length ≤ e₂.2.length + 1
  expanded : ∀ v ∈ V, (∃ p, (v, p) ∈ Q) ∨ (∀ u, EdgeOf ts v u → u ∈ V)

/-- The two-edge example graph of the spec, with `A`, `B`, `C` rendered as
`HOME_SCREEN`, `SHOP`, `BATTLE`: edges `A→B` and `B→C` only. -/
def exTransAB : StateTransition := ⟨GameState.HOME_SCREEN, GameState.SHOP, [], 1⟩

/-- Edge `B→C` of the example graph. -/
def exTransBC : StateTransition := ⟨GameState.SHOP, GameState.BATTLE, [], 1⟩

/-- The example transition map with edges `A→B`, `B→C` only. -/
def exGraph : TransMap :=
  [((GameState.HOME_SCREEN, GameState.SHOP), exTransAB),
   ((GameState.SHOP, GameState.BATTLE), exTransBC)]

/-- A manager on the example graph whose current state is `A`. -/
def exManagerA : StateManager := ⟨GameState.HOME_SCREEN, none, [], exGraph, 0⟩

/-- A manager on the example graph whose current state is `C`. -/
def exManagerC : StateManager := ⟨GameState.BATTLE, none, [], exGraph, 0⟩

/-- The keys of the transitions dict are pairwise distinct (what being a
Python dict guarantees). -/
def NodupKeys (ts : TransMap) : Prop := (ts.map Prod.fst).Nodup

/-- Managers reachable from a freshly constructed `StateManager()` by any
sequence of `update_state` and `register_transition` calls.  `find_path` is
read-only in the embedding — it returns a value and leaves the manager
unchanged — so a `find_path` call induces the identity step. -/
inductive ManagerReach : StateManager → Prop
  | init : ManagerReach StateManager.initial
  | update {m : StateManager} (s : GameState) (now : ℚ) :
      ManagerReach m → ManagerReach (m.update_state s now).1
  | register {m : StateManager} (f t : GameState) (a : List String) (d : ℚ) :
      ManagerReach m → ManagerReach (m.register_transition f t a d)

/-- The capture→detect oracle: call index ↦ (detected state, `time.time()`
value) for that `update_state()` cycle.  Frame capture and the detector are
external collaborators of the navigation loop, so they enter as an
environment. -/
abbrev DetectEnv := Nat → GameState × ℚ

/-- The `for transition in path:` loop of `navigate_to`: per transition it
executes the action list (logged here; `_execute_action`'s return value is
discarded by the caller), sleeps the expected duration, re-detects and calls
`update_state`, and aborts returning `False` on a `to_state` mismatch.
Returns (result, manager, next oracle index, executed-action log). -/
def navigate_loop (env : DetectEnv) :
    List StateTransition → StateManager → Nat → List String →
    Bool × StateManager × Nat × List String
  | [], m, k, log => (true, m, k, log)
  | tr :: rest, m, k, log =>
    let log' := log ++ tr.action_sequence
    let d := (env k).1
    let m' := (m.update_state d (env k).2).1
    if d ≠ tr.to_state then (false, m', k + 1, log')
    else navigate_loop env rest m' (k + 1) log'

/-- `NikkeAutomation.navigate_to(target)`: update state from a fresh
detection; success if already at the target; `if not path:` failure when
`find_path` yields `None` (or an empty list); otherwise run the hop loop. -/
def navigate_to (env : DetectEnv) (m₀ : StateManager) (target : GameState) (k : Nat) :
    Bool × StateManager × Nat × List String :=
  let d0 := (env k).1
  let m1 := (m₀.update_state d0 (env k).2).1
  if d0 = target then (true, m1, k + 1, [])
  else
    match m1.find_path target with
    | none => (false, m1, k + 1, [])
    | some [] => (false, m1, k + 1, [])
    | some (tr :: path) => navigate_loop env (tr :: path) m1 (k + 1) []

/-- Detector oracle for the C2 witness: every detection cycle reports
`HOME_SCREEN` (the hop's button press failed). -/
def envHomeStuck : DetectEnv := fun k => (GameState.HOME_SCREEN, (k : ℚ))

/-- The `MatchMethod` enum: `EXACT = TM_CCOEFF_NORMED`,
`SQDIFF = TM_SQDIFF_NORMED`, `CCORR = TM_CCORR_NORMED`. -/
inductive MatchMethod where
  | EXACT
  | SQDIFF
  | CCORR
deriving DecidableEq, Repr

/-- `invert_score = (method == MatchMethod.SQDIFF)`: difference-style
methods report `1 - rawScore`. -/
def MatchMethod.invertScore : MatchMethod → Bool
  | MatchMethod.SQDIFF => true
  | _ => false

/-- A decoded image: shape plus pixel grid.  Pixel data flows only into the
external matching oracle, exactly as frames flow into `cv2.matchTemplate`. -/
structure Image where
  height : Nat
  width : Nat
  data : List (List ℚ)
deriving DecidableEq, Repr

/-- A score surface (`result` array): rows of match scores. -/
abbrev ScoreMap := List (List ℚ)

/-- The `TemplateMatch` result class. -/
structure TemplateMatch where
  top_left : Nat × Nat
  bottom_right : Nat × Nat
  confidence : ℚ
  template_name : String
  method : MatchMethod
deriving DecidableEq, Repr

/-- `TemplateMatch.center`. -/
def TemplateMatch.center (m : TemplateMatch) : Nat × Nat :=
  ((m.top_left.1 + m.bottom_right.1) / 2, (m.top_left.2 + m.bottom_right.2) / 2)

/-- `TemplateMatch.width`. -/
def TemplateMatch.width (m : TemplateMatch) : Nat := m.bottom_right.1 - m.top_left.1

/-- `TemplateMatch.height`. -/
def TemplateMatch.height (m : TemplateMatch) : Nat := m.bottom_right.2 - m.top_left.2

/-- The loaded-template mapping of `TemplateMatcher`. -/
structure TemplateMatcher where
  templates : List (String × Image)
deriving DecidableEq, Repr

/-- Association-list lookup for `self.templates[name]`. -/
def lookupAssoc : List (String × Image) → String → Option Image
  | [], _ => none
  | (k, v) :: rest, nm => if k = nm then some v else lookupAssoc rest nm

/-- `name in self.templates` / `self.templates[name]` as an `Option`. -/
def lookupTemplate (tm : TemplateMatcher) (nm : String) : Option Image :=
  lookupAssoc tm.templates nm

/-- All surface cells with their `(x, y)` = (column, row) locations, in
row-major scan order. -/
def withCoords (res : ScoreMap) : List (ℚ × (Nat × Nat)) :=
  (res.enum.map (fun ir => ir.2.enum.map (fun jv => (jv.2, (jv.1, ir.1))))).join

/-- One comparison step of `cv2.minMaxLoc`'s scan (strict comparisons keep
the first occurrence in scan order). -/
def mmStep (acc : ℚ × ℚ × (Nat × Nat) × (Nat × Nat)) (vl : ℚ × (Nat × Nat)) :
    ℚ × ℚ × (Nat × Nat) × (Nat × Nat) :=
  ((if vl.1 < acc.1 then vl.1 else acc.1),
   (if acc.2.1 < vl.1 then vl.1 else acc.2.1),
   (if vl.1 < acc.1 then vl.2 else acc.2.2.1),
   (if acc.2.1 < vl.1 then vl.2 else acc.2.2.2))

/-- `cv2.minMaxLoc(result)`: `(min_val, max_val, min_loc, max_loc)`. -/
def minMaxLoc (res : ScoreMap) : Option (ℚ × ℚ × (Nat × Nat) × (Nat × Nat)) :=
  match withCoords res with
  | [] => none
  | c :: cs => some (cs.foldl mmStep (c.1, c.1, c.2, c.2))

/-- Number of surface rows (`result.shape[0]`). -/
def resRows (res : ScoreMap) : Nat := res.length

/-- Number of surface columns (`result.shape[1]`). -/
def resCols (res : ScoreMap) : Nat := (res.head?.map List.length).getD 0

/-- `cv2.rectangle(result, (x1, y1), (x2, y2), 0, -1)`: fill the clipped
inclusive rectangle with `0`. -/
def maskRect (res : ScoreMap) (x1 y1 x2 y2 : Nat) : ScoreMap :=
  res.enum.map fun ir =>
    if y1 ≤ ir.1 ∧ ir.1 ≤ y2 then
      ir.2.enum.map (fun jv => if x1 ≤ jv.1 ∧ jv.1 ≤ x2 then 0 else jv.2)
    else ir.2

/-- `find_template` with `multiple=False`: the chain of unknown-identifier
and template-larger-than-frame guards, then the single best location
thresholded against `threshold`. -/
def find_template_one (mt : Image → Image → MatchMethod → ScoreMap)
    (tm : TemplateMatcher) (image : Image) (nm : String) (method : MatchMethod)
    (threshold : ℚ) : Option TemplateMatch :=
  match lookupTemplate tm nm with
  | none => none
  | some tmpl =>
    if tmpl.height > image.height ∨ tmpl.width > image.width then none
    else
      match minMaxLoc (mt image tmpl method) with
      | none => none
      | some (mn, mx, mnl, mxl) =>
        let score := if method.invertScore then 1 - mn else mx
        let loc := if method.invertScore then mnl else mxl
        if score < threshold then none
        else some ⟨loc, (loc.1 + tmpl.width, loc.2 + tmpl.height), score, nm, method⟩

/-- The `while len(matches) < max_results` loop of `find_template` with
`multiple=True`: accept the best remaining location while it scores at or
above threshold, then zero out a `mask_size = 5` margin around it before
searching again. -/
def find_many_loop (nm : String) (method : MatchMethod) (threshold : ℚ) (w h : Nat) :
    Nat → ScoreMap → List TemplateMatch
  | 0, _ => []
  | remaining + 1, res =>
    match minMaxLoc res with
    | none => []
    | some (mn, mx, mnl, mxl) =>
      let score := if method.invertScore then 1 - mn else mx
      let loc := if method.invertScore then mnl else mxl
      if score < threshold then []
      else
        let masked := maskRect res (loc.1 - 5) (loc.2 - 5)
          (min (resCols res) (loc.1 + w + 5)) (min (resRows res) (loc.2 + h + 5))
        ⟨loc, (loc.1 + w, loc.2 + h), score, nm, method⟩ ::
          find_many_loop nm method threshold w h remaining masked

/-- `find_template` with `multiple=True`: the same guards, then the masking
extraction loop. -/
def find_template_many (mt : Image → Image → MatchMethod → ScoreMap)
    (tm : TemplateMatcher) (image : Image) (nm : String) (method : MatchMethod)
    (threshold : ℚ) (max_results : Nat) : List TemplateMatch :=
  match lookupTemplate tm nm with
  | none => []
  | some tmpl =>
    if tmpl.height > image.height ∨ tmpl.width > image.width then []
    else find_many_loop nm method threshold tmpl.width tmpl.height max_results
      (mt image tmpl method)

/-- Python `a.startswith(pre)`, on the underlying character list (the
built-in string operations are external; their semantics is prefix test). -/
def strStartsWith (a pre : String) : Bool := pre.data.isPrefixOf a.data

/-- Python slicing `a[n:]`, on the underlying character list. -/
def strDrop (a : String) (n : Nat) : String := ⟨a.data.drop n⟩

/-- The externally observable outcome of one `_execute_action` call. -/
inductive ActionEffect where
  | clicked (m : TemplateMatch)
  | warnTemplateNotFound (action_name : String)
  | warnUnknownAction (action_name : String)
deriving DecidableEq, Repr

/-- `NikkeAutomation._execute_action(action_name)`: on a name starting with
`"click_"`, takes `action_name[6:]` (the `'click_'` prefix removed) as the
template identifier and looks it up at the fixed `MatchMethod.EXACT` /
`threshold=0.7` settings in a fresh frame, clicking the hit; a miss is
logged and returns `False`; any other action name hits the trailing
`Unknown action` branch and returns `False`.  Returns the method's `bool`
together with the observable effect. -/
def execute_action (mt : Image → Image → MatchMethod → ScoreMap) (tm : TemplateMatcher)
    (screen : Image) (action_name : String) : Bool × ActionEffect :=
  if strStartsWith action_name "click_" then
    let template_name := strDrop action_name 6
    match find_template_one mt tm screen template_name MatchMethod.EXACT (mkRat 7 10) with
    | some m => (true, ActionEffect.clicked m)
    | none => (false, ActionEffect.warnTemplateNotFound action_name)
  else (false, ActionEffect.warnUnknownAction action_name)

/-- A 1×1 template image for the C3 evaluation. -/
def onePix : Image := ⟨1, 1, [[0]]⟩

/-- Matching oracle for the C3 evaluation: a perfect correlation score. -/
def clickMt : Image → Image → MatchMethod → ScoreMap := fun _ _ _ => [[1]]

/-- Matcher holding both the identifier the executor actually derives
(`"template:home/shop_icon"`) and the identifier the directory-loading
convention would produce (`"home/shop_icon"`). -/
def clickTM : TemplateMatcher :=
  ⟨[("template:home/shop_icon", onePix), ("home/shop_icon", onePix)]⟩

/-- One state-detection rule: required templates, threshold, all-vs-any. -/
structure StateDef where
  required_templates : List String
  confidence_threshold : ℚ
  match_all : Bool
deriving DecidableEq, Repr

/-- The hard-coded `state_definitions` of `StateDetector.__init__`, in
insertion (registration) order. -/
def defaultStateDefs : List (GameState × StateDef) :=
  [(GameState.HOME_SCREEN, ⟨["home/menu_button", "home/shop_button"], mkRat 4 5, true⟩),
   (GameState.BATTLE, ⟨["battle/battle_ui", "battle/back_button"], mkRat 7 10, true⟩),
   (GameState.SHOP, ⟨["shop/shop_title", "shop/purchase_button"], mkRat 3 4, false⟩),
   (GameState.LOADING, ⟨["common/loading_indicator"], mkRat 3 5, true⟩),
   (GameState.ERROR, ⟨["common/error_icon", "common/error_message"], mkRat 7 10, false⟩)]

/-- The per-rule template scan of `detect_state`: counts found templates and
sums their confidences (`matched_templates`, `total_confidence`). -/
def scanTemplates (find : String → ℚ → Option ℚ) (thr : ℚ) (names : List String) :
    Nat × ℚ :=
  names.foldl
    (fun acc nm => match find nm thr with
      | some c => (acc.1 + 1, acc.2 + c)
      | none => acc)
    (0, 0)

/-- Whether a rule makes its state a candidate, and with which average
confidence: found count positive and (match-all: all found; match-any: at
least one found). -/
def ruleCandidate (find : String → ℚ → Option ℚ) (d : StateDef) : Option ℚ :=
  let mt := scanTemplates find d.confidence_threshold d.required_templates
  if 0 < mt.1 ∧ ((d.match_all = true ∧ mt.1 = d.required_templates.length) ∨
      (d.match_all = false ∧ 0 < mt.1)) then
    some (mt.2 / (mt.1 : ℚ))
  else none

/-- The `state_confidence` mapping built by `detect_state`, in rule
registration order. -/
def candidateList (find : String → ℚ → Option ℚ)
    (defs : List (GameState × StateDef)) : List (GameState × ℚ) :=
  defs.filterMap (fun sd => (ruleCandidate find sd.2).map (fun c => (sd.1, c)))

/-- Python `max(items, key=lambda x: x[1])`: keeps the current best and
replaces it only on a strictly greater key, so the first maximum wins. -/
def pickBest : (GameState × ℚ) → List (GameState × ℚ) → GameState × ℚ
  | best, [] => best
  | best, c :: cs => pickBest (if best.2 < c.2 then c else best) cs

/-- `StateDetector.detect_state` over an abstract per-template matcher
outcome `find`: the `UNKNOWN` sentinel when no state is a candidate, else
the argmax of the candidate confidences. -/
def detectCore (find : String → ℚ → Option ℚ)
    (defs : List (GameState × StateDef)) : GameState :=
  match candidateList find defs with
  | [] => GameState.UNKNOWN
  | c :: cs => (pickBest c cs).1

/-- The `find` used by `detect_state`: `find_template` at `EXACT` and the
rule's threshold, keeping the match confidence (`if match:` is object
truthiness, i.e. the match not being `None`). -/
def matcherFind (mt : Image → Image → MatchMethod → ScoreMap) (tm : TemplateMatcher)
    (image : Image) : String → ℚ → Option ℚ :=
  fun nm thr => (find_template_one mt tm image nm MatchMethod.EXACT thr).map
    TemplateMatch.confidence

/-- `StateDetector.detect_state(screen_image)`. -/
def detect_state (mt : Image → Image → MatchMethod → ScoreMap) (tm : TemplateMatcher)
    (defs : List (GameState × StateDef)) (image : Image) : GameState :=
  detectCore (matcherFind mt tm image) defs

/-- Matching oracle for the C5 witness: a perfect-score surface. -/
def mtW5 : Image → Image → MatchMethod → ScoreMap := fun _ _ _ => [[1]]

/-- Matcher for the C5 witness: only template `"a"` is loaded. -/
def tmW5 : TemplateMatcher := ⟨[("a", onePix)]⟩

/-- Rules for the C5 witness: one match-any rule requiring `"a"` and `"b"`. -/
def defsW5 : List (GameState × StateDef) :=
  [(GameState.SHOP, ⟨["a", "b"], 0, false⟩)]

/-- Uniformly oriented `[0,1]`-style confidence: raw score for
correlation-style methods, `1 - rawScore` for difference-style. -/
def orientedScore (method : MatchMethod) (v : ℚ) : ℚ :=
  if method.invertScore then 1 - v else v

/-- Matcher for the C6 witness: template `"big"` is 5×5. -/
def tmW6 : TemplateMatcher := ⟨[("big", ⟨5, 5, []⟩)]⟩

/-- An 8×1 template for the C4 evaluation. -/
def sqTemplate : Image := ⟨1, 8, [[0, 0, 0, 0, 0, 0, 0, 0]]⟩

/-- A 20×1 frame containing one exact occurrence of the template. -/
def sqImage : Image := ⟨1, 20, [List.replicate 20 0]⟩

/-- The difference-style (`TM_SQDIFF_NORMED`) score surface for that frame:
a perfect raw distance `0` at the occurrence, `1/2` elsewhere. -/
def sqdiffSurface : ScoreMap :=
  [[0, mkRat 1 2, mkRat 1 2, mkRat 1 2, mkRat 1 2, mkRat 1 2, mkRat 1 2,
    mkRat 1 2, mkRat 1 2, mkRat 1 2, mkRat 1 2, mkRat 1 2, mkRat 1 2]]

/-- Matching oracle returning that surface. -/
def sqdiffMt : Image → Image → MatchMethod → ScoreMap := fun _ _ _ => sqdiffSurface

/-- Matcher holding the template under identifier `"t"`. -/
def sqTM : TemplateMatcher := ⟨[("t", sqTemplate)]⟩

/-- The surface after the first accepted match is masked: the row is zeroed
— and for a difference-style method a raw score of `0` is a perfect match. -/
def sqZero : ScoreMap := [List.replicate 13 0]

/-- Two bounding rectangles overlap (shared area in both axes). -/
def RectOverlap (a b : TemplateMatch) : Prop :=
  a.top_left.1 < b.bottom_right.1 ∧ b.top_left.1 < a.bottom_right.1 ∧
  a.top_left.2 < b.bottom_right.2 ∧ b.top_left.2 < a.bottom_right.2

/-! ## Lemmas and claim theorems -/

lemma PathFrom.nil_iff {ts : TransMap} {a b : GameState} :
    PathFrom ts a [] b ↔ a = b := by
  constructor
  · intro h; cases h; rfl
  · rintro rfl; exact PathFrom.nil a

lemma PathFrom.snoc {ts : TransMap} {a b c : GameState} {tr : StateTransition}
    {p : List StateTransition} (h : PathFrom ts a p b) (he : ((b, c), tr) ∈ ts) :
    PathFrom ts a (p ++ [tr]) c := by
  induction h with
  | nil a => exact PathFrom.cons he (PathFrom.nil c)
  | cons he' _ ih => exact PathFrom.cons he' (ih he)

/-- A visited set closed under outgoing edges contains everything reachable
from its members. -/
lemma reach_mem_of_closed {ts : TransMap} {V : Finset GameState}
    (hcl : ∀ v ∈ V, ∀ u, EdgeOf ts v u → u ∈ V) :
    ∀ {a : GameState} {p : List StateTransition} {b : GameState},
      PathFrom ts a p b → a ∈ V → b ∈ V := by
  intro a p b h
  induction h with
  | nil a => exact id
  | cons he _ ih => exact fun ha => ih (hcl _ ha _ ⟨_, he⟩)

lemma pairwise_of_forall_mem {α : Type} {r : α → α → Prop} :
    ∀ {l : List α}, (∀ a ∈ l, ∀ b ∈ l, r a b) → l.Pairwise r
  | [], _ => List.Pairwise.nil
  | _ :: _, h => List.Pairwise.cons (fun b hb => h _ (.head _) b (.tail _ hb))
      (pairwise_of_forall_mem fun x hx y hy => h x (.tail _ hx) y (.tail _ hy))

/-- What a run of the inner edge-scan loop returning early (the
`to_s == target` branch) tells us: the answer extends the popped path by one
stored binding into the target. -/
lemma expand_inl_spec {target state : GameState} {path : List StateTransition} :
    ∀ (L : TransMap) (V : Finset GameState)
      (acc : List (GameState × List StateTransition)) {ans : List StateTransition},
      expand target state path L V acc = Sum.inl ans →
      ∃ tr, ans = path ++ [tr] ∧ ((state, target), tr) ∈ L := by
  intro L
  induction L with
  | nil => intro V acc ans h; simp [expand] at h
  | cons kv rest ih =>
    intro V acc ans h
    obtain ⟨⟨f, t⟩, tr⟩ := kv
    rw [expand] at h
    by_cases hc : f = state ∧ t ∉ V
    · rw [if_pos hc] at h
      by_cases ht : t = target
      · rw [if_pos ht] at h
        refine ⟨tr, (Sum.inl.injEq _ _).mp h |>.symm, ?_⟩
        subst ht; rcases hc with ⟨rfl, -⟩; exact List.mem_cons_self _ _
      · rw [if_neg ht] at h
        obtain ⟨tr', h1, h2⟩ := ih _ _ h
        exact ⟨tr', h1, List.mem_cons_of_mem _ h2⟩
    · rw [if_neg hc] at h
      obtain ⟨tr', h1, h2⟩ := ih _ _ h
      exact ⟨tr', h1, List.mem_cons_of_mem _ h2⟩

/-- What a run of the inner edge-scan loop tells us when it completes without
early return: how the visited set and the pending queue additions relate to
the scanned edge list. -/
lemma expand_inr_spec {target state : GameState} {path : List StateTransition} :
    ∀ (L : TransMap) (V : Finset GameState)
      (acc : List (GameState × List StateTransition))
      {V' : Finset GameState} {Q' : List (GameState × List StateTransition)},
      expand target state path L V acc = Sum.inr (V', Q') →
      V ⊆ V' ∧
      (∀ e ∈ Q', e ∈ acc ∨ ∃ tr, e.2 = path ++ [tr] ∧ ((state, e.1), tr) ∈ L ∧
        e.1 ∉ V ∧ e.1 ≠ target) ∧
      (∀ u tr, ((state, u), tr) ∈ L → u ∈ V') ∧
      (∀ v ∈ V', v ∈ V ∨ ∃ q, (v, q) ∈ Q') ∧
      (∃ tail, Q' = acc ++ tail) ∧
      Q'.length + V.card ≤ acc.length + V'.card := by
  intro L
  induction L with
  | nil =>
    intro V acc V' Q' h
    rw [expand] at h
    obtain ⟨rfl, rfl⟩ : V = V' ∧ acc = Q' := by
      have := (Sum.inr.injEq _ _).mp h
      exact ⟨congrArg Prod.fst this, congrArg Prod.snd this⟩
    refine ⟨Finset.Subset.refl _, fun e he => Or.inl he, ?_, fun v hv => Or.inl hv,
      ⟨[], (List.append_nil _).symm⟩, le_refl _⟩
    intro u tr h; simp at h
  | cons kv rest ih =>
    intro V acc V' Q' h
    obtain ⟨⟨f, t⟩, tr⟩ := kv
    rw [expand] at h
    by_cases hc : f = state ∧ t ∉ V
    · rw [if_pos hc] at h
      by_cases ht : t = target
      · rw [if_pos ht] at h; exact absurd h (by simp)
      · rw [if_neg ht] at h
        obtain ⟨hsub, hq, hsucc, hsrc, ⟨tail, htail⟩, hcount⟩ := ih _ _ h
        obtain ⟨rfl, htV⟩ := hc
        refine ⟨(Finset.subset_insert _ _).trans hsub, ?_, ?_, ?_, ?_, ?_⟩
        · intro e he
          rcases hq e he with hacc | ⟨tr', h1, h2, h3, h4⟩
          · rcases List.mem_append.mp hacc with h' | h'
            · exact Or.inl h'
            · rcases List.mem_singleton.mp h' with rfl
              exact Or.inr ⟨tr, rfl, List.mem_cons_self _ _, htV, ht⟩
          · exact Or.inr ⟨tr', h1, List.mem_cons_of_mem _ h2,
              fun hm => h3 (Finset.mem_insert_of_mem hm), h4⟩
        · intro u tr' hm
          rcases List.mem_cons.mp hm with heq | hm'
          · obtain ⟨h1, h2⟩ := Prod.mk.injEq _ _ _ _ |>.mp heq
            obtain ⟨-, rfl⟩ := Prod.mk.injEq _ _ _ _ |>.mp h1
            exact hsub (Finset.mem_insert_self _ _)
          · exact hsucc u tr' hm'
        · intro v hv
          rcases hsrc v hv with hv' | hv'
          · rcases Finset.mem_insert.mp hv' with rfl | hv''
            · exact Or.inr ⟨path ++ [tr], htail ▸ List.mem_append_left _
                (List.mem_append_right _ (List.mem_singleton.mpr rfl))⟩
            · exact Or.inl hv''
          · exact Or.inr hv'
        · exact ⟨(t, path ++ [tr]) :: tail, by simpa using htail⟩
        · have hcard : (insert t V).card = V.card + 1 := Finset.card_insert_of_not_mem htV
          have hlen : (acc ++ [(t, path ++ [tr])]).length = acc.length + 1 := by simp
          omega
    · rw [if_neg hc] at h
      obtain ⟨hsub, hq, hsucc, hsrc, htail, hcount⟩ := ih _ _ h
      refine ⟨hsub, ?_, ?_, hsrc, htail, hcount⟩
      · intro e he
        rcases hq e he with hacc | ⟨tr', h1, h2, h3, h4⟩
        · exact Or.inl hacc
        · exact Or.inr ⟨tr', h1, List.mem_cons_of_mem _ h2, h3, h4⟩
      · intro u tr' hm
        rcases List.mem_cons.mp hm with heq | hm'
        · obtain ⟨h1, h2⟩ := Prod.mk.injEq _ _ _ _ |>.mp heq
          obtain ⟨rfl, rfl⟩ := Prod.mk.injEq _ _ _ _ |>.mp h1
          subst h2
          rcases not_and_or.mp hc with hf | htV
          · exact absurd rfl hf
          · exact hsub (not_not.mp htV)
        · exact hsucc u tr' hm'

/-- Cut argument: while the queue is nonempty, any walk that leaves the
visited set is at least one hop longer than the shortest path length at the
queue's head. -/
lemma bfs_cut {ts : TransMap} {s : GameState} {V : Finset GameState}
    {e₀ : GameState × List StateTransition} {Q' : List (GameState × List StateTransition)}
    (hentries : ∀ e ∈ e₀ :: Q', PathFrom ts s e.2 e.1 ∧
      ∀ q, PathFrom ts s q e.1 → e.2.length ≤ q.length)
    (hsorted : (e₀ :: Q').Sorted (fun e₁ e₂ => e₁.2.length ≤ e₂.2.length))
    (hexp : ∀ v ∈ V, (∃ p, (v, p) ∈ e₀ :: Q') ∨ (∀ u, EdgeOf ts v u → u ∈ V)) :
    ∀ (q : List StateTransition) (w u : GameState), PathFrom ts w q u →
      ∀ pw, PathFrom ts s pw w → w ∈ V → u ∉ V →
        e₀.2.length + 1 ≤ pw.length + q.length := by
  intro q w u h
  induction h with
  | nil a =>
    intro pw _ haV haNV
    exact absurd haV haNV
  | cons he hp ih =>
    rename_i a b c tr p
    intro pw hpw haV hcNV
    by_cases hbV : b ∈ V
    · have := ih (pw ++ [tr]) (hpw.snoc he) hbV hcNV
      simpa [Nat.add_comm, Nat.add_assoc, Nat.add_left_comm] using this
    · rcases hexp a haV with ⟨pa, hpa⟩ | hcl
      · have hopt : pa.length ≤ pw.length := (hentries _ hpa).2 pw hpw
        have hhead : e₀.2.length ≤ pa.length := by
          rcases List.mem_cons.mp hpa with heq | hmem
          · cases heq; exact le_refl _
          · exact List.rel_of_sorted_cons hsorted _ hmem
        have : 1 ≤ (tr :: p).length := by simp
        omega
      · exact absurd (hcl b ⟨tr, he⟩) hbV

/-- Master theorem for the BFS loop: under the invariant and with fuel at
least the loop measure, `bfs_fuel` returns a shortest path to the target when
one exists, and `none` when the target is unreachable from the start. -/
theorem bfs_fuel_master {ts : TransMap} {s t : GameState} :
    ∀ (fuel : Nat) (Q : List (GameState × List StateTransition)) (V : Finset GameState),
      Q.length + 2 * (Fintype.card GameState - V.card) ≤ fuel →
      BfsInv ts s t Q V →
      (ReachableIn ts s t →
        ∃ p, bfs_fuel t ts fuel Q V = some p ∧ PathFrom ts s p t ∧
          ∀ q, PathFrom ts s q t → p.length ≤ q.length) ∧
      (¬ ReachableIn ts s t → bfs_fuel t ts fuel Q V = none) := by
  intro fuel
  induction fuel with
  | zero =>
    intro Q V hfuel inv
    have hQ : Q = [] := by
      cases Q with
      | nil => rfl
      | cons e rest => simp at hfuel
    subst hQ
    constructor
    · intro ⟨p, hp⟩
      exfalso
      have hcl : ∀ v ∈ V, ∀ u, EdgeOf ts v u → u ∈ V := by
        intro v hv u he
        rcases inv.expanded v hv with ⟨q, hq⟩ | h
        · simp at hq
        · exact h u he
      exact inv.target_notin (reach_mem_of_closed hcl hp inv.start_mem)
    · intro _; rfl
  | succ fuel ih =>
    intro Q V hfuel inv
    cases Q with
    | nil =>
      constructor
      · intro ⟨p, hp⟩
        exfalso
        have hcl : ∀ v ∈ V, ∀ u, EdgeOf ts v u → u ∈ V := by
          intro v hv u he
          rcases inv.expanded v hv with ⟨q, hq⟩ | h
          · simp at hq
          · exact h u he
        exact inv.target_notin (reach_mem_of_closed hcl hp inv.start_mem)
      · intro _; rfl
    | cons e rest =>
      obtain ⟨x, px⟩ := e
      have hbfs : bfs_fuel t ts (fuel + 1) ((x, px) :: rest) V =
          (match expand t x px ts V [] with
          | Sum.inl ans => some ans
          | Sum.inr (visited', adds) => bfs_fuel t ts fuel (rest ++ adds) visited') := rfl
      rcases hexpand : expand t x px ts V [] with ans | ⟨V', adds⟩
      · -- early return: the target was generated from the popped entry
        rw [hexpand] at hbfs
        obtain ⟨tr, rfl, hmem⟩ := expand_inl_spec ts V [] hexpand
        have hhead := inv.entries (x, px) (List.mem_cons_self _ _)
        have hpath : PathFrom ts s (px ++ [tr]) t := hhead.1.snoc hmem
        have hmin : ∀ q, PathFrom ts s q t → (px ++ [tr]).length ≤ q.length := by
          intro q hq
          have := bfs_cut inv.entries inv.sorted inv.expanded
            q s t hq [] (PathFrom.nil s) inv.start_mem inv.target_notin
          simp only [List.length_append, List.length_cons, List.length_nil] at this ⊢
          omega
        constructor
        · intro _
          exact ⟨px ++ [tr], hbfs, hpath, hmin⟩
        · intro hnr
          exact absurd ⟨px ++ [tr], hpath⟩ hnr
      · -- no early return: re-establish the invariant and recurse
        rw [hexpand] at hbfs
        obtain ⟨hsub, hq, hsucc, hsrc, ⟨tail, htail⟩, hcount⟩ :=
          expand_inr_spec ts V [] hexpand
        simp only [List.nil_append, List.length_nil, Nat.zero_add] at htail hcount
        have hheadlen : ∀ e ∈ adds, e.2.length = px.length + 1 := by
          intro e he
          rcases hq e he with h' | ⟨tr, h1, -, -, -⟩
          · simp at h'
          · simp [h1]
        have inv' : BfsInv ts s t (rest ++ adds) V' := by
          refine ⟨hsub inv.start_mem, ?_, ?_, ?_, ?_, ?_⟩
          · -- target still unvisited
            intro htV'
            rcases hsrc t htV' with htV | ⟨q, hq'⟩
            · exact inv.target_notin htV
            · rcases hq (t, q) hq' with h' | ⟨tr, -, -, -, hne⟩
              · simp at h'
              · exact hne rfl
          · -- queue entries carry shortest paths
            intro e he
            rcases List.mem_append.mp he with hr | ha
            · exact inv.entries e (List.mem_cons_of_mem _ hr)
            · rcases hq e ha with h' | ⟨tr, h1, h2, h3, -⟩
              · simp at h'
              · have hhead := inv.entries (x, px) (List.mem_cons_self _ _)
                refine ⟨h1 ▸ hhead.1.snoc h2, ?_⟩
                intro q hq'
                have := bfs_cut inv.entries inv.sorted inv.expanded
                  q s e.1 hq' [] (PathFrom.nil s) inv.start_mem h3
                simp only [h1, List.length_append, List.length_cons,
                  List.length_nil] at this ⊢
                omega
          · -- sortedness
            rw [List.Sorted, List.pairwise_append]
            refine ⟨(List.sorted_cons.mp inv.sorted).2, ?_, ?_⟩
            · exact pairwise_of_forall_mem fun a ha b hb => by
                rw [hheadlen a ha, hheadlen b hb]
            · intro a ha b hb
              have := inv.close a (List.mem_cons_of_mem _ ha) (x, px)
                (List.mem_cons_self _ _)
              rw [hheadlen b hb]
              exact this
          · -- lengths within one of each other
            intro e₁ h₁ e₂ h₂
            rcases List.mem_append.mp h₁ with hr₁ | ha₁ <;>
              rcases List.mem_append.mp h₂ with hr₂ | ha₂
            · exact inv.close e₁ (List.mem_cons_of_mem _ hr₁) e₂
                (List.mem_cons_of_mem _ hr₂)
            · have h' : e₁.2.length ≤ px.length + 1 :=
                inv.close e₁ (List.mem_cons_of_mem _ hr₁) (x, px)
                  (List.mem_cons_self _ _)
              rw [hheadlen e₂ ha₂]; omega
            · have h' : px.length ≤ e₂.2.length :=
                List.rel_of_sorted_cons inv.sorted _ hr₂
              rw [hheadlen e₁ ha₁]; omega
            · rw [hheadlen e₁ ha₁, hheadlen e₂ ha₂]; omega
          · -- visited states pending or fully expanded
            intro v hv
            rcases hsrc v hv with hvV | ⟨q, hq'⟩
            · rcases inv.expanded v hvV with ⟨p, hp⟩ | hcl
              · rcases List.mem_cons.mp hp with heq | hmem
                · obtain ⟨h1, -⟩ := Prod.mk.injEq _ _ _ _ |>.mp heq
                  subst h1
                  exact Or.inr fun u ⟨tr, htr⟩ => hsucc u tr htr
                · exact Or.inl ⟨p, List.mem_append_left _ hmem⟩
              · exact Or.inr fun u he => hsub (hcl u he)
            · exact Or.inl ⟨q, List.mem_append_right _ hq'⟩
        have hfuel' : (rest ++ adds).length +
            2 * (Fintype.card GameState - V'.card) ≤ fuel := by
          have hcardle : V'.card ≤ Fintype.card GameState := Finset.card_le_univ _
          have hVle : V.card ≤ V'.card := Finset.card_le_card hsub
          simp only [List.length_append, List.length_cons] at hfuel ⊢
          omega
        have := ih (rest ++ adds) V' hfuel' inv'
        rw [hbfs]
        exact this

/-- The BFS invariant holds for the initial queue `[(current, [])]` and
visited set `{current}` set up by `find_path`. -/
lemma bfs_initial_inv {ts : TransMap} {s t : GameState} (hst : s ≠ t) :
    BfsInv ts s t [(s, [])] {s} := by
  refine ⟨Finset.mem_singleton_self s, ?_, ?_, ?_, ?_, ?_⟩
  · intro ht; exact hst (Finset.mem_singleton.mp ht).symm
  · intro e he
    rcases List.mem_singleton.mp he with rfl
    exact ⟨PathFrom.nil s, fun q _ => Nat.zero_le _⟩
  · simp [List.Sorted]
  · intro e₁ h₁ e₂ h₂
    rcases List.mem_singleton.mp h₁ with rfl
    simp
  · intro v hv
    rcases Finset.mem_singleton.mp hv with rfl
    exact Or.inl ⟨[], List.mem_singleton_self _⟩

lemma card_GameState : Fintype.card GameState = 10 := rfl

/-- Full functional specification of `StateManager.find_path`: the empty
path exactly when already at the target; a shortest transition path when the
target is reachable; `none` when it is not. -/
theorem find_path_spec (m : StateManager) (target : GameState) :
    (m.find_path target = some [] ↔ m.current_state = target) ∧
    (ReachableIn m.transitions m.current_state target →
      ∃ p, m.find_path target = some p ∧
        PathFrom m.transitions m.current_state p target ∧
        ∀ q, PathFrom m.transitions m.current_state q target → p.length ≤ q.length) ∧
    (¬ ReachableIn m.transitions m.current_state target → m.find_path target = none) := by
  by_cases hst : m.current_state = target
  · refine ⟨by simp [StateManager.find_path, hst], ?_, ?_⟩
    · intro _
      exact ⟨[], by simp [StateManager.find_path, hst], hst ▸ PathFrom.nil _,
        fun q _ => Nat.zero_le _⟩
    · intro hnr; exact absurd ⟨[], hst ▸ PathFrom.nil _⟩ hnr
  · have hfp : m.find_path target = bfs_fuel target m.transitions
        (2 * Fintype.card GameState) [(m.current_state, [])] {m.current_state} := by
      simp [StateManager.find_path, hst]
    have hfuel : ([(m.current_state, [])] :
        List (GameState × List StateTransition)).length +
        2 * (Fintype.card GameState - ({m.current_state} :
          Finset GameState).card) ≤ 2 * Fintype.card GameState := by
      simp only [List.length_cons, List.length_nil, Finset.card_singleton,
        card_GameState]
      omega
    obtain ⟨h1, h2⟩ := bfs_fuel_master (2 * Fintype.card GameState)
      [(m.current_state, [])] {m.current_state} hfuel (bfs_initial_inv hst)
    refine ⟨?_, ?_, ?_⟩
    · constructor
      · intro h
        by_cases hr : ReachableIn m.transitions m.current_state target
        · obtain ⟨p, hp, hpath, -⟩ := h1 hr
          rw [hfp, hp] at h
          obtain rfl : p = [] := (Option.some.injEq _ _).mp h
          exact absurd (PathFrom.nil_iff.mp hpath) hst
        · rw [hfp, h2 hr] at h; exact absurd h (by simp)
      · intro h; exact absurd h hst
    · intro hr
      obtain ⟨p, hp, hpath, hmin⟩ := h1 hr
      exact ⟨p, hfp ▸ hp, hpath, hmin⟩
    · intro hnr
      rw [hfp]
      exact h2 hnr

/-- C1: `find_path` is a breadth-first search over the directed edge set:
it returns the empty list iff the current state already equals the target,
returns a minimum-hop transition path when the target is reachable, returns
`none` when it is unreachable; and on the two-edge example graph `A→B`,
`B→C` it returns exactly `[A→B, B→C]` from `A` to `C`, and `none` from `C`
to `A`. -/
theorem claim_C1_find_path_bfs (m : StateManager) (target : GameState) :
    (m.find_path target = some [] ↔ m.current_state = target) ∧
    (ReachableIn m.transitions m.current_state target →
      ∃ p, m.find_path target = some p ∧
        PathFrom m.transitions m.current_state p target ∧
        ∀ q, PathFrom m.transitions m.current_state q target → p.length ≤ q.length) ∧
    (¬ ReachableIn m.transitions m.current_state target → m.find_path target = none) ∧
    exManagerA.find_path GameState.BATTLE = some [exTransAB, exTransBC] ∧
    exManagerC.find_path GameState.HOME_SCREEN = none := by
  obtain ⟨h1, h2, h3⟩ := find_path_spec m target
  exact ⟨h1, h2, h3, by decide, by decide⟩

/-- Witness for C1: the reachability branch applied at the concrete example
manager, with its hypothesis discharged by the explicit two-hop path. -/
theorem claim_C1_witness :
    ∃ p, exManagerA.find_path GameState.BATTLE = some p ∧
      PathFrom exManagerA.transitions exManagerA.current_state p GameState.BATTLE ∧
      ∀ q, PathFrom exManagerA.transitions exManagerA.current_state q GameState.BATTLE →
        p.length ≤ q.length := by
  have h1 : ((GameState.HOME_SCREEN, GameState.SHOP), exTransAB) ∈ exGraph := by decide
  have h2 : ((GameState.SHOP, GameState.BATTLE), exTransBC) ∈ exGraph := by decide
  exact (claim_C1_find_path_bfs exManagerA GameState.BATTLE).2.1
    ⟨[exTransAB, exTransBC], PathFrom.cons h1 (PathFrom.cons h2 (PathFrom.nil _))⟩

/-- C7: `update_state` with the unchanged state returns `False` and mutates
nothing; with a different state it returns `True`, records the old current
state as previous, appends `(new, now)` to the history and resets the
dwell-start timestamp, leaving the transition graph untouched. -/
theorem claim_C7_update_state (m : StateManager) (s : GameState) (now : ℚ) :
    ((m.update_state s now).2 = true ↔ s ≠ m.current_state) ∧
    (s = m.current_state → (m.update_state s now).1 = m) ∧
    (s ≠ m.current_state →
      (m.update_state s now).1.current_state = s ∧
      (m.update_state s now).1.previous_state = some m.current_state ∧
      (m.update_state s now).1.state_history = m.state_history ++ [(s, now)] ∧
      (m.update_state s now).1.stable_state_time = now ∧
      (m.update_state s now).1.transitions = m.transitions) := by
  by_cases h : s = m.current_state <;> simp [StateManager.update_state, h]

/-- Witness for C7: the state-change branch applied to the freshly
constructed manager (current state `UNKNOWN`) with new state `HOME_SCREEN`. -/
theorem claim_C7_witness :
    (StateManager.initial.update_state GameState.HOME_SCREEN 5).1.current_state =
        GameState.HOME_SCREEN ∧
      (StateManager.initial.update_state GameState.HOME_SCREEN 5).1.previous_state =
        some StateManager.initial.current_state ∧
      (StateManager.initial.update_state GameState.HOME_SCREEN 5).1.state_history =
        StateManager.initial.state_history ++ [(GameState.HOME_SCREEN, 5)] ∧
      (StateManager.initial.update_state GameState.HOME_SCREEN 5).1.stable_state_time = 5 ∧
      (StateManager.initial.update_state GameState.HOME_SCREEN 5).1.transitions =
        StateManager.initial.transitions :=
  (claim_C7_update_state StateManager.initial GameState.HOME_SCREEN 5).2.2 (by decide)

lemma dictGet_dictSet_self (ts : TransMap) (k : GameState × GameState)
    (v : StateTransition) : dictGet (dictSet ts k v) k = some v := by
  induction ts with
  | nil => simp [dictSet, dictGet]
  | cons kv rest ih =>
    obtain ⟨k', v'⟩ := kv
    by_cases h : k' = k
    · simp [dictSet, h, dictGet]
    · simp [dictSet, h, dictGet, ih]

lemma mem_keys_dictSet {ts : TransMap} {k k' : GameState × GameState}
    {v : StateTransition} :
    k' ∈ (dictSet ts k v).map Prod.fst ↔ k' ∈ ts.map Prod.fst ∨ k' = k := by
  induction ts with
  | nil => simp [dictSet]
  | cons kv rest ih =>
    obtain ⟨k₀, v₀⟩ := kv
    by_cases h : k₀ = k
    · subst h; simp [dictSet]; tauto
    · simp [dictSet, h, ih]; tauto

lemma nodupKeys_dictSet {ts : TransMap} (k : GameState × GameState)
    (v : StateTransition) (h : NodupKeys ts) : NodupKeys (dictSet ts k v) := by
  induction ts with
  | nil => simp [NodupKeys, dictSet]
  | cons kv rest ih =>
    obtain ⟨k₀, v₀⟩ := kv
    rw [NodupKeys, List.map_cons, List.nodup_cons] at h
    by_cases hk : k₀ = k
    · subst hk
      rw [NodupKeys, dictSet, if_pos rfl, List.map_cons, List.nodup_cons]
      exact ⟨h.1, h.2⟩
    · rw [NodupKeys, dictSet, if_neg hk, List.map_cons, List.nodup_cons]
      refine ⟨?_, ih h.2⟩
      rw [mem_keys_dictSet]
      rintro (hmem | rfl)
      · exact h.1 hmem
      · exact hk rfl

/-- C9: registering a transition for an already-present ordered pair
replaces it entirely — the edge query afterwards yields exactly the second
action list and duration, and the edge set still holds at most one
transition per ordered pair. -/
theorem claim_C9_register_last_write_wins (m : StateManager) (f t : GameState)
    (a₁ : List String) (d₁ : ℚ) (a₂ : List String) (d₂ : ℚ) :
    dictGet ((m.register_transition f t a₁ d₁).register_transition f t a₂ d₂).transitions
        (f, t) = some ⟨f, t, a₂, d₂⟩ ∧
    (NodupKeys m.transitions →
      NodupKeys
        ((m.register_transition f t a₁ d₁).register_transition f t a₂ d₂).transitions) := by
  constructor
  · exact dictGet_dictSet_self _ _ _
  · intro h
    exact nodupKeys_dictSet _ _ (nodupKeys_dictSet _ _ h)

/-- Witness for C9: double registration on the blank manager keeps the keys
duplicate-free. -/
theorem claim_C9_witness :
    NodupKeys ((StateManager.blank.register_transition GameState.HOME_SCREEN
        GameState.SHOP ["a"] 1).register_transition GameState.HOME_SCREEN
        GameState.SHOP ["b"] 2).transitions :=
  (claim_C9_register_last_write_wins StateManager.blank GameState.HOME_SCREEN
    GameState.SHOP ["a"] 1 ["b"] 2).2 (by simp [NodupKeys, StateManager.blank])

lemma mem_reach_foldl (cur : GameState) :
    ∀ (L : TransMap) (acc : Finset GameState) (u : GameState),
      u ∈ L.foldl (fun acc kv => if kv.1.1 = cur then insert kv.1.2 acc else acc) acc ↔
        u ∈ acc ∨ ∃ tr, ((cur, u), tr) ∈ L := by
  intro L
  induction L with
  | nil => simp
  | cons kv rest ih =>
    intro acc u
    obtain ⟨⟨f, t⟩, tr⟩ := kv
    rw [List.foldl_cons,
      show (if ((f, t), tr).1.1 = cur then insert ((f, t), tr).1.2 acc else acc) =
        (if f = cur then insert t acc else acc) from rfl]
    by_cases h : f = cur
    · subst h
      rw [if_pos rfl, ih]
      constructor
      · rintro (hins | ⟨tr', htr'⟩)
        · rcases Finset.mem_insert.mp hins with rfl | hacc
          · exact Or.inr ⟨tr, List.mem_cons_self _ _⟩
          · exact Or.inl hacc
        · exact Or.inr ⟨tr', List.mem_cons_of_mem _ htr'⟩
      · rintro (hacc | ⟨tr', htr'⟩)
        · exact Or.inl (Finset.mem_insert_of_mem hacc)
        · rcases List.mem_cons.mp htr' with heq | hmem
          · obtain ⟨h1, -⟩ := Prod.mk.injEq _ _ _ _ |>.mp heq
            obtain ⟨-, rfl⟩ := Prod.mk.injEq _ _ _ _ |>.mp h1
            exact Or.inl (Finset.mem_insert_self _ _)
          · exact Or.inr ⟨tr', hmem⟩
    · rw [if_neg h, ih]
      constructor
      · rintro (hacc | ⟨tr', htr'⟩)
        · exact Or.inl hacc
        · exact Or.inr ⟨tr', List.mem_cons_of_mem _ htr'⟩
      · rintro (hacc | ⟨tr', htr'⟩)
        · exact Or.inl hacc
        · rcases List.mem_cons.mp htr' with heq | hmem
          · obtain ⟨h1, -⟩ := Prod.mk.injEq _ _ _ _ |>.mp heq
            obtain ⟨hf, -⟩ := Prod.mk.injEq _ _ _ _ |>.mp h1
            exact absurd hf.symm h
          · exact Or.inr ⟨tr', hmem⟩

lemma mem_get_reachable (m : StateManager) (u : GameState) :
    u ∈ m.get_reachable_states ↔
      u = m.current_state ∨ ∃ tr, ((m.current_state, u), tr) ∈ m.transitions := by
  rw [StateManager.get_reachable_states, mem_reach_foldl, Finset.mem_singleton]

/-- C8: `get_reachable_states` is exactly the current state plus the direct
one-hop successors, and is strictly weaker than `can_transition_to`: a state
reachable only through an intermediate hop satisfies `can_transition_to` yet
is not a member of `get_reachable_states`. -/
theorem claim_C8_reachable_vs_canreach (m : StateManager) :
    (∀ u, u ∈ m.get_reachable_states ↔
      u = m.current_state ∨ ∃ tr, ((m.current_state, u), tr) ∈ m.transitions) ∧
    (∀ C, ReachableIn m.transitions m.current_state C →
      (¬ ∃ tr, ((m.current_state, C), tr) ∈ m.transitions) → C ≠ m.current_state →
      m.can_transition_to C = true ∧ C ∉ m.get_reachable_states) := by
  refine ⟨mem_get_reachable m, ?_⟩
  intro C hr hnd hne
  constructor
  · obtain ⟨p, hp, -, -⟩ := (find_path_spec m C).2.1 hr
    simp [StateManager.can_transition_to, hp]
  · rw [mem_get_reachable]
    rintro (rfl | h)
    · exact hne rfl
    · exact hnd h

/-- Witness for C8: on the example graph `A→B`, `B→C`, the state `C` is
reachable from `A` only via `B`; `can_transition_to` affirms it while it is
absent from `get_reachable_states`. -/
theorem claim_C8_witness :
    exManagerA.can_transition_to GameState.BATTLE = true ∧
      GameState.BATTLE ∉ exManagerA.get_reachable_states := by
  have h1 : ((GameState.HOME_SCREEN, GameState.SHOP), exTransAB) ∈ exGraph := by decide
  have h2 : ((GameState.SHOP, GameState.BATTLE), exTransBC) ∈ exGraph := by decide
  refine (claim_C8_reachable_vs_canreach exManagerA).2 GameState.BATTLE
    ⟨[exTransAB, exTransBC], PathFrom.cons h1 (PathFrom.cons h2 (PathFrom.nil _))⟩
    ?_ (by decide)
  rintro ⟨tr, htr⟩
  simp [exManagerA, exGraph, exTransAB, exTransBC] at htr

lemma manager_inv {m : StateManager} (h : ManagerReach m) :
    (∀ p, m.previous_state = some p → p ≠ m.current_state) ∧
    (m.state_history.map Prod.fst).Chain' (· ≠ ·) ∧
    (∀ l, (m.state_history.map Prod.fst).getLast? = some l → l = m.current_state) := by
  induction h with
  | init =>
    refine ⟨?_, ?_, ?_⟩
    · intro p hp
      rw [show StateManager.initial.previous_state = none from rfl] at hp
      exact absurd hp (by simp)
    · rw [show StateManager.initial.state_history = [] from rfl]
      simp
    · intro l hl
      rw [show StateManager.initial.state_history = [] from rfl] at hl
      simp at hl
  | update s now hm ih =>
    rename_i m'
    by_cases hs : s = m'.current_state
    · simpa [StateManager.update_state, hs] using ih
    · obtain ⟨ih1, ih2, ih3⟩ := ih
      refine ⟨?_, ?_, ?_⟩
      · intro p hp
        rw [show ((m'.update_state s now).1.previous_state) =
            (if s = m'.current_state then m'.previous_state
             else some m'.current_state) from by
          simp [StateManager.update_state]; split <;> rfl] at hp
        rw [if_neg hs] at hp
        obtain rfl : m'.current_state = p := (Option.some.injEq _ _).mp hp
        rw [show ((m'.update_state s now).1.current_state) =
            (if s = m'.current_state then m'.current_state else s) from by
          simp [StateManager.update_state]; split <;> rfl]
        rw [if_neg hs]
        exact fun hc => hs hc.symm
      · rw [show ((m'.update_state s now).1.state_history) =
            (if s = m'.current_state then m'.state_history
             else m'.state_history ++ [(s, now)]) from by
          simp [StateManager.update_state]; split <;> rfl]
        rw [if_neg hs, List.map_append]
        rw [List.chain'_append]
        refine ⟨ih2, by simp, ?_⟩
        intro x hx y hy
        simp only [List.map_cons, List.map_nil, List.head?_cons,
          Option.mem_def, Option.some.injEq] at hy
        subst hy
        have := ih3 x (by simpa using hx)
        subst this
        exact fun hc => hs hc.symm
      · intro l hl
        rw [show ((m'.update_state s now).1.state_history) =
            (if s = m'.current_state then m'.state_history
             else m'.state_history ++ [(s, now)]) from by
          simp [StateManager.update_state]; split <;> rfl] at hl
        rw [if_neg hs] at hl
        simp only [List.map_append, List.map_cons, List.map_nil,
          List.getLast?_append, List.getLast?_singleton] at hl
        rw [show ((m'.update_state s now).1.current_state) =
            (if s = m'.current_state then m'.current_state else s) from by
          simp [StateManager.update_state]; split <;> rfl]
        rw [if_neg hs]
        simp at hl
        exact hl.symm
  | register f t a d hm ih =>
    simpa [StateManager.register_transition] using ih

/-- C10: for every manager reachable from a freshly constructed one by
`update_state` / `register_transition` / (read-only) `find_path` calls, the
previous state, when set, differs from the current state, and the history
never records the same state twice in a row. -/
theorem claim_C10_session_invariant (m : StateManager) (h : ManagerReach m) :
    (∀ p, m.previous_state = some p → p ≠ m.current_state) ∧
    (m.state_history.map Prod.fst).Chain' (· ≠ ·) :=
  ⟨(manager_inv h).1, (manager_inv h).2.1⟩

/-- Witness for C10: the invariant at the freshly constructed manager. -/
theorem claim_C10_witness :
    (∀ p, StateManager.initial.previous_state = some p →
      p ≠ StateManager.initial.current_state) ∧
    (StateManager.initial.state_history.map Prod.fst).Chain' (· ≠ ·) :=
  claim_C10_session_invariant StateManager.initial ManagerReach.init

/-- After any `update_state(d)` call the manager's current state equals the
freshly detected state `d`, whether or not the state changed. -/
lemma update_state_current (m : StateManager) (d : GameState) (now : ℚ) :
    (m.update_state d now).1.current_state = d := by
  by_cases h : d = m.current_state
  · simp [StateManager.update_state, h]
  · simp [StateManager.update_state, h]

/-- If every hop before position `i` verifies and hop `i` re-detects a state
other than its declared `to_state`, the loop stops right there: it returns
`False`, has executed only the action lists of the first `i+1` transitions,
and leaves the session current state at the freshly observed state. -/
lemma navigate_loop_abort (env : DetectEnv) :
    ∀ (path : List StateTransition) (i : Nat) (m : StateManager) (k : Nat)
      (log : List String) (tri : StateTransition),
      path.get? i = some tri →
      (∀ j trj, path.get? j = some trj → j < i → (env (k + j)).1 = trj.to_state) →
      (env (k + i)).1 ≠ tri.to_state →
      ∃ mF, navigate_loop env path m k log =
          (false, mF, k + i + 1,
            log ++ (path.take (i + 1)).bind StateTransition.action_sequence) ∧
        mF.current_state = (env (k + i)).1 := by
  intro path
  induction path with
  | nil => intro i m k log tri hget; simp at hget
  | cons tr rest ih =>
    intro i m k log tri hget hprev hmiss
    cases i with
    | zero =>
      obtain rfl : tr = tri := by simpa using hget
      rw [show k + 0 = k from rfl] at hmiss
      refine ⟨(m.update_state (env k).1 (env k).2).1, ?_, update_state_current _ _ _⟩
      rw [navigate_loop]
      simp only [if_pos hmiss]
      simp
    | succ j =>
      have h0 : (env k).1 = tr.to_state := by
        have := hprev 0 tr (by simp) (Nat.succ_pos j)
        simpa using this
      have hstep : navigate_loop env (tr :: rest) m k log =
          (if (env k).1 ≠ tr.to_state then
            (false, (m.update_state (env k).1 (env k).2).1, k + 1, log ++ tr.action_sequence)
          else navigate_loop env rest (m.update_state (env k).1 (env k).2).1 (k + 1)
            (log ++ tr.action_sequence)) := rfl
      have hget' : rest.get? j = some tri := by simpa using hget
      have hprev' : ∀ j' trj, rest.get? j' = some trj → j' < j →
          (env (k + 1 + j')).1 = trj.to_state := by
        intro j' trj hj' hlt
        have := hprev (j' + 1) trj (by simpa using hj') (Nat.succ_lt_succ hlt)
        rwa [show k + (j' + 1) = k + 1 + j' from by omega] at this
      have hmiss' : (env (k + 1 + j)).1 ≠ tri.to_state := by
        rwa [show k + (j + 1) = k + 1 + j from by omega] at hmiss
      obtain ⟨mF, h1, h2⟩ := ih j ((m.update_state (env k).1 (env k).2).1) (k + 1)
        (log ++ tr.action_sequence) tri hget' hprev' hmiss'
      refine ⟨mF, ?_, by rwa [show k + 1 + j = k + (j + 1) from by omega] at h2⟩
      rw [hstep, if_neg (fun hc => hc h0), h1]
      have harith : k + 1 + j + 1 = k + (j + 1) + 1 := by omega
      have hlog : (log ++ tr.action_sequence) ++
          (rest.take (j + 1)).bind StateTransition.action_sequence =
          log ++ ((tr :: rest).take (j + 1 + 1)).bind StateTransition.action_sequence := by
        simp [List.take_cons, List.append_assoc]
      rw [harith, hlog]

/-- C2: when `navigate_to` executes a path and the re-detection after hop
`i` disagrees with that transition's declared `to_state`, the call returns
`False` immediately — only the action lists of hops `0..i` were executed —
and the session's current state equals the freshly observed state rather
than the stale pre-hop state. -/
theorem claim_C2_abort_on_mismatch (env : DetectEnv) (m₀ : StateManager)
    (target : GameState) (k : Nat) (path : List StateTransition) (i : Nat)
    (tri : StateTransition)
    (h0 : (env k).1 ≠ target)
    (hpath : ((m₀.update_state (env k).1 (env k).2).1).find_path target = some path)
    (hget : path.get? i = some tri)
    (hprev : ∀ j trj, path.get? j = some trj → j < i → (env (k + 1 + j)).1 = trj.to_state)
    (hmiss : (env (k + 1 + i)).1 ≠ tri.to_state) :
    ∃ mF, navigate_to env m₀ target k =
        (false, mF, k + 1 + i + 1,
          (path.take (i + 1)).bind StateTransition.action_sequence) ∧
      mF.current_state = (env (k + 1 + i)).1 := by
  cases path with
  | nil => simp at hget
  | cons tr rest =>
    obtain ⟨mF, h1, h2⟩ := navigate_loop_abort env (tr :: rest) i
      ((m₀.update_state (env k).1 (env k).2).1) (k + 1) [] tri hget hprev hmiss
    refine ⟨mF, ?_, h2⟩
    rw [navigate_to]
    simp only [if_neg h0, hpath]
    rw [h1]
    simp

/-- Witness for C2: the spec's failed-hop scenario.  From `HOME_SCREEN` with
the default `HOME_SCREEN→SHOP` edge, `navigate_to(SHOP)` executes the hop's
click action, re-detects `HOME_SCREEN`, returns `False`, and the session
state remains the observed `HOME_SCREEN`. -/
theorem claim_C2_witness :
    ∃ mF, navigate_to envHomeStuck StateManager.initial GameState.SHOP 0 =
        (false, mF, 2, ["click_template:home/shop_icon"]) ∧
      mF.current_state = GameState.HOME_SCREEN := by
  obtain ⟨mF, h1, h2⟩ := claim_C2_abort_on_mismatch envHomeStuck StateManager.initial
    GameState.SHOP 0
    [⟨GameState.HOME_SCREEN, GameState.SHOP, ["click_template:home/shop_icon"], 2⟩] 0
    ⟨GameState.HOME_SCREEN, GameState.SHOP, ["click_template:home/shop_icon"], 2⟩
    (by decide) (by decide) rfl (by intro j trj hj hlt; omega) (by decide)
  exact ⟨mF, by simpa using h1, by simpa using h2⟩

/-- C3, evaluated at the failing inputs: the registered default action
`"wait:2.0"` falls into the `Unknown action` branch (no sleep is performed),
and the registered default action `"click_template:home/shop_icon"` strips
only `"click_"`, so the executor looks up — and here clicks — the template
identifier `"template:home/shop_icon"`, not the referenced
`"home/shop_icon"`. -/
theorem claim_C3_code_eval :
    (∀ (mt : Image → Image → MatchMethod → ScoreMap) (tm : TemplateMatcher)
      (screen : Image), execute_action mt tm screen "wait:2.0" =
        (false, ActionEffect.warnUnknownAction "wait:2.0")) ∧
    execute_action clickMt clickTM onePix "click_template:home/shop_icon" =
      (true, ActionEffect.clicked
        ⟨(0, 0), (1, 1), 1, "template:home/shop_icon", MatchMethod.EXACT⟩) ∧
    "template:home/shop_icon" ≠ "home/shop_icon" := by
  refine ⟨fun mt tm screen => ?_, by decide, by decide⟩
  have h : strStartsWith "wait:2.0" "click_" = false := by decide
  rw [execute_action, h]
  simp

lemma pickBest_spec :
    ∀ (cs : List (GameState × ℚ)) (c : GameState × ℚ),
      ∃ L₁ L₂, c :: cs = L₁ ++ pickBest c cs :: L₂ ∧
        (∀ x ∈ L₁, x.2 < (pickBest c cs).2) ∧
        (∀ x ∈ L₂, x.2 ≤ (pickBest c cs).2) := by
  intro cs
  induction cs with
  | nil =>
    intro c
    exact ⟨[], [], rfl, by simp, by simp⟩
  | cons d ds ih =>
    intro c
    by_cases h : c.2 < d.2
    · have hres : pickBest c (d :: ds) = pickBest d ds := by
        rw [pickBest, if_pos h]
      obtain ⟨L₁, L₂, hdec, hlt, hle⟩ := ih d
      have hd2 : d.2 ≤ (pickBest d ds).2 := by
        cases L₁ with
        | nil =>
          rw [List.nil_append] at hdec
          injection hdec with h1 h2
          exact le_of_eq (congrArg Prod.snd h1)
        | cons y ys =>
          rw [List.cons_append] at hdec
          injection hdec with h1 h2
          exact le_of_lt (h1 ▸ hlt y (List.mem_cons_self _ _))
      refine ⟨c :: L₁, L₂, ?_, ?_, by rw [hres]; exact hle⟩
      · rw [hres, List.cons_append, ← hdec]
      · intro x hx
        rw [hres]
        rcases List.mem_cons.mp hx with rfl | hx'
        · exact lt_of_lt_of_le h hd2
        · exact hlt x hx'
    · have hres : pickBest c (d :: ds) = pickBest c ds := by
        rw [pickBest, if_neg h]
      obtain ⟨L₁, L₂, hdec, hlt, hle⟩ := ih c
      cases L₁ with
      | nil =>
        rw [List.nil_append] at hdec
        injection hdec with h1 h2
        refine ⟨[], d :: L₂, ?_, by simp, ?_⟩
        · rw [hres, List.nil_append, ← h1, ← h2]
        · intro x hx
          rw [hres]
          rcases List.mem_cons.mp hx with rfl | hx'
          · rw [← h1]; exact not_lt.mp h
          · exact hle x hx'
      | cons y ys =>
        rw [List.cons_append] at hdec
        injection hdec with h1 h2
        refine ⟨c :: d :: ys, L₂, ?_, ?_, by rw [hres]; exact hle⟩
        · rw [hres, List.cons_append, List.cons_append, ← h2]
        · intro x hx
          rw [hres]
          rcases List.mem_cons.mp hx with rfl | hx'
          · exact h1 ▸ hlt y (List.mem_cons_self _ _)
          · rcases List.mem_cons.mp hx' with rfl | hx''
            · exact lt_of_le_of_lt (not_lt.mp h) (h1 ▸ hlt y (List.mem_cons_self _ _))
            · exact hlt x (List.mem_cons_of_mem _ hx'')

lemma mem_candidateList {find : String → ℚ → Option ℚ}
    {defs : List (GameState × StateDef)} {s : GameState} {conf : ℚ} :
    (s, conf) ∈ candidateList find defs ↔
      ∃ d, (s, d) ∈ defs ∧ ruleCandidate find d = some conf := by
  rw [candidateList, List.mem_filterMap]
  constructor
  · rintro ⟨⟨s', d⟩, hmem, hf⟩
    rcases Option.map_eq_some'.mp hf with ⟨c, hc, heq⟩
    obtain ⟨rfl, rfl⟩ := Prod.mk.injEq _ _ _ _ |>.mp heq
    exact ⟨d, hmem, hc⟩
  · rintro ⟨d, hmem, hrule⟩
    exact ⟨(s, d), hmem, by rw [hrule]; rfl⟩

lemma pickBest_mem (c : GameState × ℚ) (cs : List (GameState × ℚ)) :
    pickBest c cs ∈ c :: cs := by
  obtain ⟨L₁, L₂, hdec, -, -⟩ := pickBest_spec cs c
  rw [hdec]
  exact List.mem_append_right _ (List.mem_cons_self _ _)

/-- C5: detection returns a non-`UNKNOWN` state iff some state is a
candidate; the returned state is the first-registered candidate of maximal
average confidence (earlier candidates are strictly worse, later ones no
better); a match-all rule requiring 2 templates with only 1 found is not a
candidate regardless of that match's confidence; a match-any rule requiring
2 templates with exactly 1 found is a candidate whose confidence equals that
single match's score. -/
theorem claim_C5_detect_candidates (mt : Image → Image → MatchMethod → ScoreMap)
    (tm : TemplateMatcher) (image : Image) (defs : List (GameState × StateDef))
    (hU : ∀ sd ∈ defs, sd.1 ≠ GameState.UNKNOWN) :
    (detect_state mt tm defs image ≠ GameState.UNKNOWN ↔
      candidateList (matcherFind mt tm image) defs ≠ []) ∧
    (∀ c cs, candidateList (matcherFind mt tm image) defs = c :: cs →
      ∃ L₁ L₂ best, c :: cs = L₁ ++ best :: L₂ ∧
        detect_state mt tm defs image = best.1 ∧
        (∀ x ∈ L₁, x.2 < best.2) ∧ (∀ x ∈ L₂, x.2 ≤ best.2)) ∧
    (∀ d t₁ t₂ c₁, d.match_all = true → d.required_templates = [t₁, t₂] →
      matcherFind mt tm image t₁ d.confidence_threshold = some c₁ →
      matcherFind mt tm image t₂ d.confidence_threshold = none →
      ruleCandidate (matcherFind mt tm image) d = none) ∧
    (∀ s d t₁ t₂ c₁, (s, d) ∈ defs → d.match_all = false →
      d.required_templates = [t₁, t₂] →
      ((matcherFind mt tm image t₁ d.confidence_threshold = some c₁ ∧
        matcherFind mt tm image t₂ d.confidence_threshold = none) ∨
       (matcherFind mt tm image t₁ d.confidence_threshold = none ∧
        matcherFind mt tm image t₂ d.confidence_threshold = some c₁)) →
      (s, c₁) ∈ candidateList (matcherFind mt tm image) defs) := by
  have hds : ∀ c cs, candidateList (matcherFind mt tm image) defs = c :: cs →
      detect_state mt tm defs image = (pickBest c cs).1 := by
    intro c cs hlist
    rw [detect_state, detectCore, hlist]
  refine ⟨?_, ?_, ?_, ?_⟩
  · cases hlist : candidateList (matcherFind mt tm image) defs with
    | nil =>
      rw [detect_state, detectCore, hlist]
      simp
    | cons c cs =>
      rw [hds c cs hlist]
      have hmem := pickBest_mem c cs
      rw [← hlist] at hmem
      have hne : (pickBest c cs).1 ≠ GameState.UNKNOWN := by
        obtain ⟨d, hd, -⟩ := mem_candidateList.mp
          (show ((pickBest c cs).1, (pickBest c cs).2) ∈
            candidateList (matcherFind mt tm image) defs from by simpa using hmem)
        exact hU _ hd
      simp [hlist, hne]
  · intro c cs hlist
    obtain ⟨L₁, L₂, hdec, hlt, hle⟩ := pickBest_spec cs c
    exact ⟨L₁, L₂, pickBest c cs, hdec, hds c cs hlist, hlt, hle⟩
  · intro d t₁ t₂ c₁ hma hreq h₁ h₂
    simp [ruleCandidate, scanTemplates, hreq, h₁, h₂, hma]
  · intro s d t₁ t₂ c₁ hmem hma hreq hcase
    refine mem_candidateList.mpr ⟨d, hmem, ?_⟩
    rcases hcase with ⟨h₁, h₂⟩ | ⟨h₁, h₂⟩ <;>
      simp [ruleCandidate, scanTemplates, hreq, h₁, h₂, hma]

/-- Witness for C5: with only `"a"` findable (score 1) and `"b"` unknown,
the match-any rule makes `SHOP` a candidate whose confidence equals the
single match's score. -/
theorem claim_C5_witness :
    (GameState.SHOP, (1 : ℚ)) ∈ candidateList (matcherFind mtW5 tmW5 onePix) defsW5 :=
  (claim_C5_detect_candidates mtW5 tmW5 onePix defsW5 (by decide)).2.2.2
    GameState.SHOP ⟨["a", "b"], 0, false⟩ "a" "b" 1 (by decide) rfl rfl
    (Or.inl ⟨by decide, by decide⟩)

/-- The scan fold of `minMaxLoc` tracks a genuine cell for the minimum and
the maximum, and bounds every scanned cell. -/
lemma mmFold_spec (cs : List (ℚ × (Nat × Nat))) :
    ∀ (a : ℚ × ℚ × (Nat × Nat) × (Nat × Nat)),
      (((cs.foldl mmStep a).1, (cs.foldl mmStep a).2.2.1) = (a.1, a.2.2.1) ∨
        ((cs.foldl mmStep a).1, (cs.foldl mmStep a).2.2.1) ∈ cs) ∧
      (((cs.foldl mmStep a).2.1, (cs.foldl mmStep a).2.2.2) = (a.2.1, a.2.2.2) ∨
        ((cs.foldl mmStep a).2.1, (cs.foldl mmStep a).2.2.2) ∈ cs) ∧
      (cs.foldl mmStep a).1 ≤ a.1 ∧ a.2.1 ≤ (cs.foldl mmStep a).2.1 ∧
      (∀ vl ∈ cs, (cs.foldl mmStep a).1 ≤ vl.1 ∧ vl.1 ≤ (cs.foldl mmStep a).2.1) := by
  induction cs with
  | nil => intro a; exact ⟨Or.inl rfl, Or.inl rfl, le_refl _, le_refl _, by simp⟩
  | cons vl₀ rest ih =>
    intro a
    rw [List.foldl_cons]
    obtain ⟨hminp, hmaxp, hmin_le, hmax_le, hall⟩ := ih (mmStep a vl₀)
    have ea1 : (mmStep a vl₀).1 = if vl₀.1 < a.1 then vl₀.1 else a.1 := rfl
    have ea2 : (mmStep a vl₀).2.1 = if a.2.1 < vl₀.1 then vl₀.1 else a.2.1 := rfl
    have ea3 : (mmStep a vl₀).2.2.1 = if vl₀.1 < a.1 then vl₀.2 else a.2.2.1 := rfl
    have ea4 : (mmStep a vl₀).2.2.2 = if a.2.1 < vl₀.1 then vl₀.2 else a.2.2.2 := rfl
    have hstep_min_le : (mmStep a vl₀).1 ≤ a.1 ∧ (mmStep a vl₀).1 ≤ vl₀.1 := by
      rw [ea1]; by_cases h : vl₀.1 < a.1
      · rw [if_pos h]; exact ⟨le_of_lt h, le_refl _⟩
      · rw [if_neg h]; exact ⟨le_refl _, not_lt.mp h⟩
    have hstep_max_le : a.2.1 ≤ (mmStep a vl₀).2.1 ∧ vl₀.1 ≤ (mmStep a vl₀).2.1 := by
      rw [ea2]; by_cases h : a.2.1 < vl₀.1
      · rw [if_pos h]; exact ⟨le_of_lt h, le_refl _⟩
      · rw [if_neg h]; exact ⟨le_refl _, not_lt.mp h⟩
    have hstep_minp : ((mmStep a vl₀).1, (mmStep a vl₀).2.2.1) = (a.1, a.2.2.1) ∨
        ((mmStep a vl₀).1, (mmStep a vl₀).2.2.1) = vl₀ := by
      rw [ea1, ea3]; by_cases h : vl₀.1 < a.1
      · rw [if_pos h, if_pos h]; exact Or.inr rfl
      · rw [if_neg h, if_neg h]; exact Or.inl rfl
    have hstep_maxp : ((mmStep a vl₀).2.1, (mmStep a vl₀).2.2.2) = (a.2.1, a.2.2.2) ∨
        ((mmStep a vl₀).2.1, (mmStep a vl₀).2.2.2) = vl₀ := by
      rw [ea2, ea4]; by_cases h : a.2.1 < vl₀.1
      · rw [if_pos h, if_pos h]; exact Or.inr rfl
      · rw [if_neg h, if_neg h]; exact Or.inl rfl
    refine ⟨?_, ?_, le_trans hmin_le hstep_min_le.1,
      le_trans hstep_max_le.1 hmax_le, ?_⟩
    · rcases hminp with heq | hmem
      · rcases hstep_minp with h' | h'
        · exact Or.inl (heq.trans h')
        · exact Or.inr (by rw [heq, h']; exact List.mem_cons_self _ _)
      · exact Or.inr (List.mem_cons_of_mem _ hmem)
    · rcases hmaxp with heq | hmem
      · rcases hstep_maxp with h' | h'
        · exact Or.inl (heq.trans h')
        · exact Or.inr (by rw [heq, h']; exact List.mem_cons_self _ _)
      · exact Or.inr (List.mem_cons_of_mem _ hmem)
    · intro vl hvl
      rcases List.mem_cons.mp hvl with rfl | hvl'
      · exact ⟨le_trans hmin_le hstep_min_le.2, le_trans hstep_max_le.2 hmax_le⟩
      · exact hall vl hvl'

/-- `cv2.minMaxLoc` returns the surface minimum and maximum, each attained
at its reported location, and these bound every cell. -/
lemma minMaxLoc_spec {res : ScoreMap} {mn mx : ℚ} {mnl mxl : Nat × Nat}
    (h : minMaxLoc res = some (mn, mx, mnl, mxl)) :
    (mn, mnl) ∈ withCoords res ∧ (mx, mxl) ∈ withCoords res ∧
    ∀ vl ∈ withCoords res, mn ≤ vl.1 ∧ vl.1 ≤ mx := by
  rw [minMaxLoc] at h
  cases hwc : withCoords res with
  | nil => rw [hwc] at h; exact absurd h (by simp)
  | cons c cs =>
    rw [hwc] at h
    have heq : cs.foldl mmStep (c.1, c.1, c.2, c.2) = (mn, mx, mnl, mxl) := by
      simpa using h
    obtain ⟨hminp, hmaxp, hmin_le, hmax_le, hall⟩ := mmFold_spec cs (c.1, c.1, c.2, c.2)
    rw [heq] at hminp hmaxp hmin_le hmax_le hall
    refine ⟨?_, ?_, ?_⟩
    · rcases hminp with h' | h'
      · have hc : (mn, mnl) = c := h'
        exact hc ▸ List.mem_cons_self _ _
      · exact List.mem_cons_of_mem _ h'
    · rcases hmaxp with h' | h'
      · have hc : (mx, mxl) = c := h'
        exact hc ▸ List.mem_cons_self _ _
      · exact List.mem_cons_of_mem _ h'
    · intro vl hvl
      rcases List.mem_cons.mp hvl with rfl | hvl'
      · exact ⟨hmin_le, hmax_le⟩
      · exact hall vl hvl'

/-- C6: `find_template` (single-match form) returns "no match" — never an
exception, the embedding being total — whenever the identifier is not loaded
or the stored template exceeds the frame in either pixel dimension,
regardless of the threshold; otherwise the uniformly oriented confidence of
the best surface cell is compared against the threshold: at or above it the
single best candidate is returned (its confidence bounds every cell's
oriented score and is attained on the surface), below it "no match". -/
theorem claim_C6_findone_failure_modes (mt : Image → Image → MatchMethod → ScoreMap)
    (tm : TemplateMatcher) (image : Image) (nm : String) (method : MatchMethod)
    (threshold : ℚ) :
    (lookupTemplate tm nm = none →
      find_template_one mt tm image nm method threshold = none) ∧
    (∀ tmpl, lookupTemplate tm nm = some tmpl →
      (image.height < tmpl.height ∨ image.width < tmpl.width) →
      find_template_one mt tm image nm method threshold = none) ∧
    (∀ tmpl mn mx mnl mxl, lookupTemplate tm nm = some tmpl →
      ¬(image.height < tmpl.height ∨ image.width < tmpl.width) →
      minMaxLoc (mt image tmpl method) = some (mn, mx, mnl, mxl) →
      (∀ vl ∈ withCoords (mt image tmpl method),
        orientedScore method vl.1 ≤ (if method.invertScore then 1 - mn else mx)) ∧
      (∃ vl ∈ withCoords (mt image tmpl method),
        orientedScore method vl.1 = (if method.invertScore then 1 - mn else mx)) ∧
      ((if method.invertScore then 1 - mn else mx) < threshold →
        find_template_one mt tm image nm method threshold = none) ∧
      (threshold ≤ (if method.invertScore then 1 - mn else mx) →
        find_template_one mt tm image nm method threshold =
          some ⟨(if method.invertScore then mnl else mxl),
            ((if method.invertScore then mnl else mxl).1 + tmpl.width,
             (if method.invertScore then mnl else mxl).2 + tmpl.height),
            (if method.invertScore then 1 - mn else mx), nm, method⟩)) := by
  refine ⟨?_, ?_, ?_⟩
  · intro h
    rw [find_template_one, h]
  · intro tmpl hlk hdim
    rw [find_template_one, hlk]
    simp only [if_pos hdim]
  · intro tmpl mn mx mnl mxl hlk hdim hmm
    obtain ⟨hminm, hmaxm, hbound⟩ := minMaxLoc_spec hmm
    have hunf : find_template_one mt tm image nm method threshold =
        (if (if method.invertScore then 1 - mn else mx) < threshold then none
         else some ⟨(if method.invertScore then mnl else mxl),
           ((if method.invertScore then mnl else mxl).1 + tmpl.width,
            (if method.invertScore then mnl else mxl).2 + tmpl.height),
           (if method.invertScore then 1 - mn else mx), nm, method⟩) := by
      rw [find_template_one, hlk]
      simp only [if_neg hdim, hmm]
    refine ⟨?_, ?_, ?_, ?_⟩
    · intro vl hvl
      by_cases hb : method.invertScore
      · simp only [orientedScore, hb, if_true]
        have := (hbound vl hvl).1
        linarith
      · simp only [orientedScore, hb, if_false]
        exact (hbound vl hvl).2
    · by_cases hb : method.invertScore
      · refine ⟨(mn, mnl), hminm, ?_⟩
        simp [orientedScore, hb]
      · refine ⟨(mx, mxl), hmaxm, ?_⟩
        simp [orientedScore, hb]
    · intro hlt
      rw [hunf, if_pos hlt]
    · intro hge
      rw [hunf, if_neg (not_lt.mpr hge)]

/-- Witness for C6: a template larger than the 1×1 frame in both dimensions
yields "no match" (threshold 0 notwithstanding). -/
theorem claim_C6_witness :
    find_template_one (fun _ _ _ => []) tmW6 onePix "big" MatchMethod.EXACT 0 = none :=
  (claim_C6_findone_failure_modes (fun _ _ _ => []) tmW6 onePix "big"
    MatchMethod.EXACT 0).2.1 ⟨5, 5, []⟩ rfl (by decide)

set_option maxRecDepth 4000 in
/-- C4, evaluated at the failing input: with the SQDIFF method (threshold
0.9, `max_results` 2) on a frame holding one exact template occurrence, the
`cv2.rectangle(..., 0, -1)` suppression write makes the masked cells carry
the best possible raw difference score, so the second iteration re-accepts a
masked location with reported confidence 1: the call returns two overlapping
(here identical) candidates instead of suppressing the margin. -/
theorem claim_C4_code_eval :
    find_template_many sqdiffMt sqTM sqImage "t" MatchMethod.SQDIFF (mkRat 9 10) 2 =
      [⟨(0, 0), (8, 1), 1, "t", MatchMethod.SQDIFF⟩,
       ⟨(0, 0), (8, 1), 1, "t", MatchMethod.SQDIFF⟩] ∧
    RectOverlap ⟨(0, 0), (8, 1), 1, "t", MatchMethod.SQDIFF⟩
      ⟨(0, 0), (8, 1), 1, "t", MatchMethod.SQDIFF⟩ := by
  have hsub : (1 : ℚ) - 0 = 1 := by norm_num
  have hthr : ¬((1 : ℚ) < mkRat 9 10) := by
    rw [show mkRat 9 10 = 9 / 10 from by rw [Rat.mkRat_eq_div]; norm_num]
    norm_num
  constructor
  · have step1 : find_template_many sqdiffMt sqTM sqImage "t" MatchMethod.SQDIFF
        (mkRat 9 10) 2 =
        (if (1 : ℚ) - 0 < mkRat 9 10 then [] else
          (⟨(0, 0), (8, 1), 1 - 0, "t", MatchMethod.SQDIFF⟩ : TemplateMatch) ::
            find_many_loop "t" MatchMethod.SQDIFF (mkRat 9 10) 8 1 1 sqZero) := rfl
    have step2 : find_many_loop "t" MatchMethod.SQDIFF (mkRat 9 10) 8 1 1 sqZero =
        (if (1 : ℚ) - 0 < mkRat 9 10 then [] else
          [(⟨(0, 0), (8, 1), 1 - 0, "t", MatchMethod.SQDIFF⟩ : TemplateMatch)]) := rfl
    rw [step1, hsub, if_neg hthr, step2, hsub, if_neg hthr]
  · exact ⟨by decide, by decide, by decide, by decide⟩
